import Mathlib

/-!
Verification of the arithmetic module of the mega repository
(src/mega/op/arithmethic.pyx).

The module defines a Cython extension type SigmaZ computing the divisor
power sum and a function euler_phi computing the Euler totient via trial
division.  Both are shallowly embedded below.  C ints are modelled as
unbounded integers; the while loops are modelled by structurally recursive
functions driven by a fuel argument large enough to cover every iteration
the source loop performs.  The C library call pow on integer arguments is
modelled by exact exponentiation followed by rounding to the nearest IEEE
double (53 significant bits, ties to even), which on the target platform
(glibc, whose pow stays below 0.52 ulp of error) is the value the code
observes at every input used in the theorems below; the subsequent cast
to long truncates, which on an integral double below 2 to the 63 is exact.
-/

/-- Python exception values raised by the module, by class and message. -/
inductive PyError where
  | valueError (msg : String)
  | typeError (msg : String)
deriving DecidableEq

/-- The SigmaZ extension type, fields `cdef int n` and `cdef int z`. -/
structure SigmaZ where
  n : ℤ
  z : ℤ
deriving DecidableEq

/-- Embeds `SigmaZ.__cinit__`: validates the inputs, then stores them. -/
def SigmaZ.cinit (n z : ℤ) : Except PyError SigmaZ :=
  if n ≤ 0 then Except.error (PyError.valueError "only acc positive integer")
  else if z < 0 then Except.error (PyError.valueError "exponent must be non-negative")
  else Except.ok ⟨n, z⟩

/-- Mutable state of the `compute` method: the receiver `self` (only read by
the source) together with the local variables `total` and `i` (mutated). -/
structure CState where
  self : SigmaZ
  total : ℤ
  i : ℤ
deriving DecidableEq

/-- Round a natural number to the nearest multiple of `ulp`, ties to even
multiples. -/
def roundEven (x ulp : ℕ) : ℕ :=
  let q := x / ulp
  let r := x % ulp
  if 2 * r < ulp then ulp * q
  else if ulp < 2 * r then ulp * (q + 1)
  else if q % 2 = 0 then ulp * q else ulp * (q + 1)

/-- Floor logarithm base 2 by structural recursion on a fuel argument, so
that concrete instances reduce inside the kernel; any fuel of at least
`n` suffices and gives the usual value. -/
def log2Go : ℕ → ℕ → ℕ
  | 0, _ => 0
  | fuel + 1, n => if 2 ≤ n then log2Go fuel (n / 2) + 1 else 0

/-- The value of the IEEE double nearest to the natural number `x`
(round to nearest, ties to even): exact below 2 to the 53, otherwise
rounded at the precision of the binade of `x`. -/
def doubleRound (x : ℕ) : ℕ :=
  if x < 2 ^ 53 then x else roundEven x (2 ^ (log2Go x x - 52))

/-- Models `<long>(pow(b, e))` from the source for a nonnegative base and
exponent: the libc `pow` on exactly representable integer arguments returns
the double nearest to the exact power, and the cast to long of that
integral double recovers it exactly (for values below 2 to the 63). -/
def powDouble (b e : ℕ) : ℕ := doubleRound (b ^ e)

/-- The `z == 0` loop of `SigmaZ.compute`: while `i * i <= n`, count the
divisor pair `(i, n // i)`, a perfect square root once, then `i += 1`. -/
def tauLoop : ℕ → CState → CState
  | 0, st => st
  | fuel + 1, st =>
    if st.i * st.i ≤ st.self.n then
      tauLoop fuel
        (if st.self.n % st.i = 0 then
          (if st.i = st.self.n / st.i then ⟨st.self, st.total + 1, st.i + 1⟩
           else ⟨st.self, st.total + 2, st.i + 1⟩)
         else ⟨st.self, st.total, st.i + 1⟩)
    else st

/-- The general loop of `SigmaZ.compute` for `z >= 1`: while `i * i <= n`,
add `<long>(pow(i, z))` and, for a distinct cofactor, `<long>(pow(n // i, z))`,
then `i += 1`.  Valid instances have `n >= 1` and `z >= 0`, so the
conversions `toNat` below are exact. -/
def sigLoop : ℕ → CState → CState
  | 0, st => st
  | fuel + 1, st =>
    if st.i * st.i ≤ st.self.n then
      sigLoop fuel
        (if st.self.n % st.i = 0 then
          (if st.i = st.self.n / st.i then
            ⟨st.self, st.total + (powDouble st.i.toNat st.self.z.toNat : ℤ), st.i + 1⟩
           else
            ⟨st.self,
             st.total + ((powDouble st.i.toNat st.self.z.toNat : ℤ)
               + (powDouble (st.self.n / st.i).toNat st.self.z.toNat : ℤ)),
             st.i + 1⟩)
         else ⟨st.self, st.total, st.i + 1⟩)
    else st

/-- Embeds `SigmaZ.compute` as a method: it returns the computed value
together with the receiver object after the call.  The loops run `i` from 1
while `i * i <= n`; a fuel of `n.toNat + 1` covers every iteration since the
loop leaves `i` at most at `Nat.sqrt n + 1`. -/
def SigmaZ.computeM (s : SigmaZ) : ℤ × SigmaZ :=
  if s.z = 0 then
    let st := tauLoop (s.n.toNat + 1) ⟨s, 0, 1⟩
    (st.total, st.self)
  else
    let st := sigLoop (s.n.toNat + 1) ⟨s, 0, 1⟩
    (st.total, st.self)

/-- The value returned by `SigmaZ.compute`. -/
def SigmaZ.compute (s : SigmaZ) : ℤ := s.computeM.1

/-- The inner `while n % p == 0: n //= p` loops of `euler_phi`, stripping
every factor `p` from `m`; any fuel of at least `m` iterations suffices. -/
def stripGo (p : ℕ) : ℕ → ℕ → ℕ
  | 0, m => m
  | fuel + 1, m => if m % p = 0 then stripGo p fuel (m / p) else m

/-- The odd trial division loop of `euler_phi`: while `i * i <= m`, if `i`
divides `m` apply `result -= result // i` and strip every factor `i` from
`m`; in every case `i += 2`.  Returns the final working copy `m` and the
running `result`. -/
def phiLoopGo : ℕ → ℕ → ℕ → ℕ → ℕ × ℕ
  | 0, _, m, result => (m, result)
  | fuel + 1, i, m, result =>
    if i * i ≤ m then
      (if m % i = 0 then
        phiLoopGo fuel (i + 2) (stripGo i m m) (result - result / i)
       else phiLoopGo fuel (i + 2) m result)
    else (m, result)

/-- The computation performed by `euler_phi` after validation: handle the
prime 2, run the odd trial division loop from 3, then apply the final
adjustment when the remaining working copy exceeds 1. -/
def phiCore (n : ℕ) : ℕ :=
  let result0 := n
  let m1 := if n % 2 = 0 then stripGo 2 n n else n
  let result1 := if n % 2 = 0 then result0 - result0 / 2 else result0
  let out := phiLoopGo m1 3 m1 result1
  if 1 < out.1 then out.2 - out.2 / out.1 else out.2

/-- Models the check `isinstance(n, int)` inside `euler_phi`: the parameter
is declared `cdef int`, so the value boxed for this check is always a Python
int and the check always holds. -/
def isinstance_int (_ : ℤ) : Bool := true

/-- Embeds `cpdef int euler_phi(int n)`: validation, the unreachable
isinstance guard, then the totient computation. -/
def euler_phi (n : ℤ) : Except PyError ℤ :=
  if n ≤ 0 then Except.error (PyError.valueError "only positive number will accept")
  else if ¬ isinstance_int n then Except.error (PyError.typeError "only acc integer numbers")
  else Except.ok (phiCore n.toNat : ℤ)

/-- Specification side, from the claims: the number of positive divisors of
`n`, by brute force enumeration. -/
def numDivisors (n : ℕ) : ℕ := ((Finset.Icc 1 n).filter (· ∣ n)).card

/-- Specification side, from the claims: the sum of the z-th powers of all
positive divisors of `n`, by brute force enumeration. -/
def divisorPowerSum (n z : ℕ) : ℕ := ∑ d ∈ (Finset.Icc 1 n).filter (· ∣ n), d ^ z

/-- Specification side, from the claims: the number of `k` in `[1, n]` with
`gcd(k, n) = 1`. -/
def coprimeCount (n : ℕ) : ℕ := ((Finset.Icc 1 n).filter (fun k => Nat.gcd k n = 1)).card

/-- Contribution of one loop index `d` to the divisor count computed by the
`z == 0` loop of `SigmaZ.compute`: nothing unless `d` divides `n`, one for a
square root of `n`, two for a pair of distinct divisors. -/
def tauBody (n d : ℕ) : ℕ := if n % d = 0 then (if d = n / d then 1 else 2) else 0

/-! ### Helper lemmas -/

theorem tauLoop_self (fuel : ℕ) : ∀ st : CState, (tauLoop fuel st).self = st.self := by
  induction fuel with
  | zero => intro st; rfl
  | succ f ih =>
    intro st
    simp only [tauLoop]
    split_ifs <;> simp [ih]

theorem sigLoop_self (fuel : ℕ) : ∀ st : CState, (sigLoop fuel st).self = st.self := by
  induction fuel with
  | zero => intro st; rfl
  | succ f ih =>
    intro st
    simp only [sigLoop]
    split_ifs <;> simp [ih]

theorem powDouble_one (e : ℕ) : powDouble 1 e = 1 := by
  norm_num [powDouble, doubleRound]

theorem sigLoop_base_one (z t : ℤ) :
    (sigLoop 2 ⟨⟨1, z⟩, t, 1⟩).total = t + 1 := by
  show (sigLoop (0 + 1 + 1) ⟨⟨1, z⟩, t, 1⟩).total = t + 1
  simp only [sigLoop]
  norm_num [powDouble_one]

/-! ### Claim C1 -/

/-- Claim C1 (code bug): the claim asserts that `SigmaZ(n, z).compute()`
returns the exact sum of the z-th powers of the divisors of `n` for every
`n > 0`, `z >= 0`, and the docstring of `compute` states the same formula.
At `n = 3`, `z = 35` the code computes `pow(3, 35)` in double precision:
the exact power needs 55 significant bits, so the nearest double (and
every double within the 0.52 ulp error bound of the libc pow) is
`3 ^ 35 - 3`, and the method returns a value 3 short of the exact sum. -/
theorem sigmaZ_compute_float_rounding_bug :
    SigmaZ.compute ⟨3, 35⟩ = 50031545098999705 ∧
    (divisorPowerSum 3 35 : ℤ) = 50031545098999708 ∧
    SigmaZ.compute ⟨3, 35⟩ ≠ (divisorPowerSum 3 35 : ℤ) := by
  refine ⟨by decide, by decide, by decide⟩

/-! ### Claim C4 -/

/-- Claim C4, counterexample: constructing `SigmaZ(0, 0)` fails, but with
the message `only acc positive integer`, not the claimed message
`input must be a positive integer`. -/
theorem sigmaZ_cinit_message_counterexample :
    SigmaZ.cinit 0 0 = Except.error (PyError.valueError "only acc positive integer") ∧
    SigmaZ.cinit 0 0 ≠ Except.error (PyError.valueError "input must be a positive integer") := by
  refine ⟨rfl, ?_⟩
  rw [show SigmaZ.cinit 0 0 = Except.error (PyError.valueError "only acc positive integer")
    from rfl]
  simp

/-- Claim C4 as amended: construction fails with a validation error exactly
when `n <= 0` (message `only acc positive integer`; this check runs first)
or when `n > 0` and `z < 0` (message `exponent must be non-negative`), and
succeeds, storing `n` and `z`, exactly when `n > 0` and `z >= 0`. -/
theorem sigmaZ_cinit_validation (n z : ℤ) :
    (SigmaZ.cinit n z = Except.error (PyError.valueError "only acc positive integer") ↔ n ≤ 0) ∧
    (SigmaZ.cinit n z = Except.error (PyError.valueError "exponent must be non-negative") ↔
      0 < n ∧ z < 0) ∧
    (SigmaZ.cinit n z = Except.ok ⟨n, z⟩ ↔ 0 < n ∧ 0 ≤ z) := by
  unfold SigmaZ.cinit
  split_ifs with h1 h2 <;> refine ⟨?_, ?_, ?_⟩ <;> simp_all

/-- Claim C4, witness for the amended theorem at a concrete input. -/
theorem sigmaZ_cinit_validation_witness :
    SigmaZ.cinit 0 5 = Except.error (PyError.valueError "only acc positive integer") :=
  (sigmaZ_cinit_validation 0 5).1.mpr (by norm_num)

/-! ### Claims C5, C10, C7, C8 -/

/-- Claim C5: for `n <= 0` the function `euler_phi` fails with a
`ValueError`, an error value distinct from every successful numeric
result, and for `n > 0` it returns a number and never fails. -/
theorem euler_phi_validation (n : ℤ) :
    (n ≤ 0 → euler_phi n = Except.error (PyError.valueError "only positive number will accept")) ∧
    (0 < n → ∃ v : ℤ, euler_phi n = Except.ok v) ∧
    (∀ e : PyError, ∀ v : ℤ, Except.error e ≠ (Except.ok v : Except PyError ℤ)) := by
  refine ⟨fun h => by rw [euler_phi, if_pos h], fun h => ?_, fun e v h => by injection h⟩
  rw [euler_phi, if_neg (by omega)]
  refine ⟨(phiCore n.toNat : ℤ), ?_⟩
  simp [isinstance_int]

/-- Claim C5, witness at the concrete inputs `-3` and `5`. -/
theorem euler_phi_validation_witness :
    ((-3 : ℤ) ≤ 0 ∧
      euler_phi (-3) = Except.error (PyError.valueError "only positive number will accept")) ∧
    ((0 : ℤ) < 5 ∧ ∃ v : ℤ, euler_phi 5 = Except.ok v) :=
  ⟨⟨by norm_num, (euler_phi_validation (-3)).1 (by norm_num)⟩,
   ⟨by norm_num, (euler_phi_validation 5).2.1 (by norm_num)⟩⟩

/-- Claim C10: `euler_phi` never raises a `TypeError`; the only error it can
return is the `ValueError` of the `n <= 0` validation, because the
`isinstance` check guarding the `TypeError` always holds for the typed
integer parameter. -/
theorem euler_phi_no_type_error (n : ℤ) :
    (∀ msg : String, euler_phi n ≠ Except.error (PyError.typeError msg)) ∧
    (∀ e : PyError, euler_phi n = Except.error e →
      n ≤ 0 ∧ e = PyError.valueError "only positive number will accept") := by
  by_cases h : n ≤ 0
  · rw [euler_phi, if_pos h]
    constructor
    · intro msg hmsg
      simp at hmsg
    · intro e he
      injection he with h2
      exact ⟨h, h2.symm⟩
  · rw [euler_phi, if_neg h]
    constructor
    · intro msg hmsg
      simp [isinstance_int] at hmsg
    · intro e he
      simp [isinstance_int] at he

/-- Claim C10, witness at the concrete input `-1`. -/
theorem euler_phi_no_type_error_witness :
    (euler_phi (-1) ≠ Except.error (PyError.typeError "only acc integer numbers")) ∧
    ((-1 : ℤ) ≤ 0 ∧ PyError.valueError "only positive number will accept"
      = PyError.valueError "only positive number will accept") :=
  ⟨(euler_phi_no_type_error (-1)).1 "only acc integer numbers",
   (euler_phi_no_type_error (-1)).2 (PyError.valueError "only positive number will accept") rfl⟩

/-- Claim C7: for every `z >= 0`, constructing `SigmaZ(1, z)` succeeds and
`compute()` returns 1, the single divisor of 1 raised to any power. -/
theorem sigmaZ_one (z : ℤ) (hz : 0 ≤ z) :
    ∃ s : SigmaZ, SigmaZ.cinit 1 z = Except.ok s ∧ s.compute = 1 := by
  refine ⟨⟨1, z⟩, ?_, ?_⟩
  · rw [SigmaZ.cinit, if_neg (by norm_num), if_neg (by omega)]
  · by_cases h : z = 0
    · subst h; decide
    · show (⟨1, z⟩ : SigmaZ).computeM.1 = 1
      rw [SigmaZ.computeM, if_neg h]
      show (sigLoop ((1 : ℤ).toNat + 1) ⟨⟨1, z⟩, 0, 1⟩).total = 1
      rw [show (1 : ℤ).toNat + 1 = 2 from rfl]
      rw [sigLoop_base_one]
      norm_num

/-- Claim C7, witness at the concrete exponent `5`. -/
theorem sigmaZ_one_witness :
    (0 : ℤ) ≤ 5 ∧ ∃ s : SigmaZ, SigmaZ.cinit 1 5 = Except.ok s ∧ s.compute = 1 :=
  ⟨by norm_num, sigmaZ_one 5 (by norm_num)⟩

/-- Claim C8: a validly constructed `SigmaZ` instance is immutable: the
`compute` method returns the receiver with both stored fields unchanged, a
repeated call on the returned object yields the same value, and the value
depends only on the stored fields `n` and `z`. -/
theorem sigmaZ_compute_immutable (s : SigmaZ) (hn : 0 < s.n) (hz : 0 ≤ s.z) :
    s.computeM.2 = s ∧ s.computeM.2.computeM.1 = s.computeM.1 ∧
    ∀ t : SigmaZ, t.n = s.n → t.z = s.z → t.computeM.1 = s.computeM.1 := by
  have h2 : s.computeM.2 = s := by
    rw [SigmaZ.computeM]
    split_ifs <;> simp [tauLoop_self, sigLoop_self]
  refine ⟨h2, by rw [h2], ?_⟩
  intro t ha hb
  have ht : t = s := by cases t; cases s; simp_all
  rw [ht]

/-- Claim C8, witness at the concrete instance `SigmaZ(6, 2)`. -/
theorem sigmaZ_compute_immutable_witness :
    (0 : ℤ) < (⟨6, 2⟩ : SigmaZ).n ∧ (0 : ℤ) ≤ (⟨6, 2⟩ : SigmaZ).z ∧
    ((⟨6, 2⟩ : SigmaZ).computeM.2 = ⟨6, 2⟩ ∧
      (⟨6, 2⟩ : SigmaZ).computeM.2.computeM.1 = (⟨6, 2⟩ : SigmaZ).computeM.1 ∧
      ∀ t : SigmaZ, t.n = (⟨6, 2⟩ : SigmaZ).n → t.z = (⟨6, 2⟩ : SigmaZ).z →
        t.computeM.1 = (⟨6, 2⟩ : SigmaZ).computeM.1) :=
  ⟨by norm_num, by norm_num, sigmaZ_compute_immutable ⟨6, 2⟩ (by norm_num) (by norm_num)⟩

/-- The `z == 0` loop accumulates, over the remaining indices `j` up to
`Nat.sqrt n`, the divisor pair counts, provided the fuel covers the
remaining iterations. -/
theorem tauLoop_total (n : ℕ) (z : ℤ) :
    ∀ (fuel j : ℕ) (t : ℤ), 1 ≤ j → Nat.sqrt n < j + fuel →
    (tauLoop fuel ⟨⟨(n : ℤ), z⟩, t, (j : ℤ)⟩).total
      = t + ∑ d ∈ Finset.Ico j (Nat.sqrt n + 1), (tauBody n d : ℤ) := by
  intro fuel
  induction fuel with
  | zero =>
    intro j t hj hlt
    rw [Finset.Ico_eq_empty (by omega)]
    simp [tauLoop]
  | succ f ih =>
    intro j t hj hlt
    by_cases hcond : j * j ≤ n
    · have hj_sqrt : j ≤ Nat.sqrt n := Nat.le_sqrt.mpr hcond
      have hcondZ : ((j : ℤ) * (j : ℤ) ≤ (n : ℤ)) := by exact_mod_cast hcond
      have hsplit := Finset.sum_eq_sum_Ico_succ_bot
        (show j < Nat.sqrt n + 1 by omega) (fun d => (tauBody n d : ℤ))
      by_cases hd : n % j = 0
      · have hdZ : (n : ℤ) % (j : ℤ) = 0 := by norm_cast
        by_cases he : j = n / j
        · have heZ : (j : ℤ) = (n : ℤ) / (j : ℤ) := by norm_cast
          have hstep : tauLoop (f + 1) ⟨⟨(n : ℤ), z⟩, t, (j : ℤ)⟩
              = tauLoop f ⟨⟨(n : ℤ), z⟩, t + 1, ((j + 1 : ℕ) : ℤ)⟩ := by
            rw [tauLoop]
            dsimp only
            rw [if_pos hcondZ, if_pos hdZ, if_pos heZ]
            norm_cast
          rw [hstep, ih (j + 1) (t + 1) (by omega) (by omega), hsplit]
          have hb : tauBody n j = 1 := by simp [tauBody, hd, ← he]
          rw [hb]
          push_cast
          ring
        · have heZ : ¬ ((j : ℤ) = (n : ℤ) / (j : ℤ)) := by
            intro hcontra
            exact he (by exact_mod_cast hcontra)
          have hstep : tauLoop (f + 1) ⟨⟨(n : ℤ), z⟩, t, (j : ℤ)⟩
              = tauLoop f ⟨⟨(n : ℤ), z⟩, t + 2, ((j + 1 : ℕ) : ℤ)⟩ := by
            rw [tauLoop]
            dsimp only
            rw [if_pos hcondZ, if_pos hdZ, if_neg heZ]
            norm_cast
          rw [hstep, ih (j + 1) (t + 2) (by omega) (by omega), hsplit]
          have hb : tauBody n j = 2 := by simp [tauBody, hd, he]
          rw [hb]
          push_cast
          ring
      · have hdZ : ¬ ((n : ℤ) % (j : ℤ) = 0) := by
          intro hcontra
          exact hd (by exact_mod_cast hcontra)
        have hstep : tauLoop (f + 1) ⟨⟨(n : ℤ), z⟩, t, (j : ℤ)⟩
            = tauLoop f ⟨⟨(n : ℤ), z⟩, t, ((j + 1 : ℕ) : ℤ)⟩ := by
          rw [tauLoop]
          dsimp only
          rw [if_pos hcondZ, if_neg hdZ]
          norm_cast
        rw [hstep, ih (j + 1) t (by omega) (by omega), hsplit]
        have hb : tauBody n j = 0 := by simp [tauBody, hd]
        rw [hb]
        push_cast
        ring
    · have hsq : Nat.sqrt n < j := by
        by_contra hcon
        exact hcond (Nat.le_sqrt.mp (by omega))
      have hcondZ : ¬ ((j : ℤ) * (j : ℤ) ≤ (n : ℤ)) := by
        intro hcontra
        exact hcond (by exact_mod_cast hcontra)
      rw [Finset.Ico_eq_empty (by omega)]
      rw [tauLoop]
      dsimp only
      rw [if_neg hcondZ]
      simp

/-- The loop indices that contribute are exactly the divisors of `n` not
exceeding its square root. -/
theorem Ico_filter_mod_eq_divisors_sq_le (n : ℕ) (hn : 0 < n) :
    (Finset.Ico 1 (Nat.sqrt n + 1)).filter (fun d => n % d = 0)
      = n.divisors.filter (fun d => d * d ≤ n) := by
  ext d
  simp only [Finset.mem_filter, Finset.mem_Ico, Nat.mem_divisors]
  constructor
  · rintro ⟨⟨h1, h2⟩, h3⟩
    refine ⟨⟨Nat.dvd_iff_mod_eq_zero.mpr h3, by omega⟩, Nat.le_sqrt.mp (by omega)⟩
  · rintro ⟨⟨h1, h2⟩, h3⟩
    have hd1 : 0 < d := Nat.pos_of_dvd_of_pos h1 hn
    have := Nat.le_sqrt.mpr h3
    exact ⟨⟨by omega, by omega⟩, Nat.dvd_iff_mod_eq_zero.mp h1⟩

/-- The map sending a divisor above the square root to its cofactor is a
bijection onto the divisors strictly below the square root. -/
theorem card_divisors_above_sqrt (n : ℕ) (hn : 0 < n) :
    (n.divisors.filter (fun d => ¬ d * d ≤ n)).card
      = (n.divisors.filter (fun d => d * d < n)).card := by
  apply Finset.card_bij (fun d _ => n / d)
  · intro a ha
    simp only [Finset.mem_filter, Nat.mem_divisors] at ha ⊢
    obtain ⟨⟨hdvd, hne⟩, hgt⟩ := ha
    obtain ⟨e, he⟩ := hdvd
    have ha0 : 0 < a := Nat.pos_of_dvd_of_pos ⟨e, he⟩ hn
    have hdiv : n / a = e := by rw [he, Nat.mul_div_cancel_left e ha0]
    have he0 : 0 < e := by
      rcases Nat.eq_zero_or_pos e with h0 | h0
      · subst h0; omega
      · exact h0
    have hlt : e < a := by
      by_contra hcon
      push_neg at hcon
      have h1 : a * a ≤ a * e := Nat.mul_le_mul_left a hcon
      omega
    have h2 : e * e < a * e := (Nat.mul_lt_mul_right he0).mpr hlt
    have h3 : a * e = e * a := Nat.mul_comm a e
    refine ⟨⟨⟨a, by rw [hdiv, he]; exact Nat.mul_comm a e⟩, hne⟩, ?_⟩
    rw [hdiv]
    omega
  · intro a ha b hb hab
    simp only [Finset.mem_filter, Nat.mem_divisors] at ha hb
    obtain ⟨⟨⟨ea, hea⟩, hnea⟩, hga⟩ := ha
    obtain ⟨⟨⟨eb, heb⟩, hneb⟩, hgb⟩ := hb
    have ha0 : 0 < a := Nat.pos_of_dvd_of_pos ⟨ea, hea⟩ hn
    have hb0 : 0 < b := Nat.pos_of_dvd_of_pos ⟨eb, heb⟩ hn
    have hda : n / a = ea := by rw [hea, Nat.mul_div_cancel_left ea ha0]
    have hdb : n / b = eb := by rw [heb, Nat.mul_div_cancel_left eb hb0]
    have hea0 : 0 < ea := by
      rcases Nat.eq_zero_or_pos ea with h0 | h0
      · subst h0; omega
      · exact h0
    rw [hda, hdb] at hab
    subst hab
    have hmul : a * ea = b * ea := by rw [← hea, ← heb]
    exact Nat.eq_of_mul_eq_mul_right hea0 hmul
  · intro e he
    simp only [Finset.mem_filter, Nat.mem_divisors] at he ⊢
    obtain ⟨⟨⟨f, hf⟩, hne⟩, hlt⟩ := he
    have he0 : 0 < e := Nat.pos_of_dvd_of_pos ⟨f, hf⟩ hn
    have hf0 : 0 < f := by
      rcases Nat.eq_zero_or_pos f with h0 | h0
      · subst h0; omega
      · exact h0
    have hef : e < f := by
      by_contra hcon
      push_neg at hcon
      have h1 : e * f ≤ e * e := Nat.mul_le_mul_left e hcon
      omega
    refine ⟨f, ⟨⟨⟨e, by rw [hf]; exact Nat.mul_comm e f⟩, hne⟩, ?_⟩, ?_⟩
    · intro hcon
      have h2 : e * f < f * f := (Nat.mul_lt_mul_right hf0).mpr hef
      omega
    · rw [hf, Nat.mul_comm e f, Nat.mul_div_cancel_left e hf0]

/-- The total accumulated by the `z == 0` loop over all indices up to the
square root is the number of divisors of `n`. -/
theorem sum_tauBody (n : ℕ) (hn : 0 < n) :
    ∑ d ∈ Finset.Ico 1 (Nat.sqrt n + 1), tauBody n d = n.divisors.card := by
  have h1 : ∑ d ∈ Finset.Ico 1 (Nat.sqrt n + 1), tauBody n d
      = ∑ d ∈ (Finset.Ico 1 (Nat.sqrt n + 1)).filter (fun d => n % d = 0),
          (if d = n / d then 1 else 2) := by
    rw [Finset.sum_filter]
    exact Finset.sum_congr rfl (fun d _ => by simp [tauBody])
  rw [h1, Ico_filter_mod_eq_divisors_sq_le n hn]
  have h2 : ∑ d ∈ n.divisors.filter (fun d => d * d ≤ n), (if d = n / d then 1 else 2)
      = ∑ d ∈ n.divisors.filter (fun d => d * d ≤ n),
          ((1 : ℕ) + if d * d < n then 1 else 0) := by
    apply Finset.sum_congr rfl
    intro d hd
    simp only [Finset.mem_filter, Nat.mem_divisors] at hd
    obtain ⟨⟨hdvd, hne⟩, hle⟩ := hd
    have hd0 : 0 < d := Nat.pos_of_dvd_of_pos hdvd (Nat.pos_of_ne_zero hne)
    by_cases hsq : d * d = n
    · have hpos : d = n / d := by
        rw [← hsq, Nat.mul_div_cancel_left d hd0]
      rw [if_pos hpos, if_neg (by omega)]
    · rw [if_neg, if_pos (by omega)]
      intro hcontra
      apply hsq
      conv_rhs => rw [← Nat.div_mul_cancel hdvd, ← hcontra]
  rw [h2, Finset.sum_add_distrib]
  have h3 : ∑ d ∈ n.divisors.filter (fun d => d * d ≤ n), (1 : ℕ)
      = (n.divisors.filter (fun d => d * d ≤ n)).card := by simp
  have h4 : ∑ d ∈ n.divisors.filter (fun d => d * d ≤ n), (if d * d < n then (1 : ℕ) else 0)
      = (n.divisors.filter (fun d => d * d < n)).card := by
    rw [← Finset.sum_filter, Finset.filter_filter]
    have : n.divisors.filter (fun d => d * d ≤ n ∧ d * d < n)
        = n.divisors.filter (fun d => d * d < n) :=
      Finset.filter_congr (fun d _ => by constructor <;> intro h <;> omega)
    rw [this]
    simp
  rw [h3, h4]
  have h5 : (n.divisors.filter (fun d => d * d ≤ n)).card
      + (n.divisors.filter (fun d => ¬ d * d ≤ n)).card = n.divisors.card :=
    Finset.filter_card_add_filter_neg_card_eq_card _
  have h6 := card_divisors_above_sqrt n hn
  omega

/-- The brute force divisor count agrees with the Mathlib divisor set. -/
theorem numDivisors_eq_card_divisors (n : ℕ) (hn : 0 < n) :
    numDivisors n = n.divisors.card := by
  unfold numDivisors
  apply congrArg Finset.card
  ext d
  simp only [Finset.mem_filter, Finset.mem_Icc, Nat.mem_divisors]
  constructor
  · rintro ⟨⟨h1, h2⟩, h3⟩
    exact ⟨h3, by omega⟩
  · rintro ⟨h1, h2⟩
    exact ⟨⟨Nat.pos_of_dvd_of_pos h1 hn, Nat.le_of_dvd hn h1⟩, h1⟩

/-! ### Claim C3 -/

/-- Claim C3: for every `n > 0`, constructing `SigmaZ(n, 0)` succeeds and
`compute()` returns the number of positive divisors of `n`, counting a
square root of `n` once and every other divisor pair twice. -/
theorem sigmaZ_compute_counts_divisors (n : ℤ) (hn : 0 < n) :
    ∃ s : SigmaZ, SigmaZ.cinit n 0 = Except.ok s ∧
      s.compute = (numDivisors n.toNat : ℤ) := by
  refine ⟨⟨n, 0⟩, ?_, ?_⟩
  · rw [SigmaZ.cinit, if_neg (by omega), if_neg (by omega)]
  · show (⟨n, 0⟩ : SigmaZ).computeM.1 = _
    rw [SigmaZ.computeM, if_pos (show (⟨n, 0⟩ : SigmaZ).z = 0 from rfl)]
    dsimp only
    obtain ⟨m, rfl⟩ : ∃ m : ℕ, n = (m : ℤ) :=
      ⟨n.toNat, (Int.toNat_of_nonneg (by omega)).symm⟩
    have hm : 0 < m := by exact_mod_cast hn
    rw [Int.toNat_natCast m]
    have htot := tauLoop_total m 0 (m + 1) 1 0 (by omega)
      (by have := Nat.sqrt_le_self m; omega)
    rw [show ((1 : ℕ) : ℤ) = (1 : ℤ) from rfl] at htot
    rw [htot, numDivisors_eq_card_divisors m hm, ← sum_tauBody m hm]
    push_cast
    omega

/-- Claim C3, witness at the concrete input `n = 36`. -/
theorem sigmaZ_compute_counts_divisors_witness :
    (0 : ℤ) < 36 ∧ ∃ s : SigmaZ, SigmaZ.cinit 36 0 = Except.ok s ∧
      s.compute = (numDivisors (36 : ℤ).toNat : ℤ) :=
  ⟨by decide, sigmaZ_compute_counts_divisors 36 (by decide)⟩

/-- The stripping loop of `euler_phi` factors out of `m` the full power of
`p` it contains: the result divides `m`, is positive, and is no longer
divisible by `p`. -/
theorem stripGo_spec (p : ℕ) (hp : 2 ≤ p) :
    ∀ (fuel m : ℕ), 0 < m → m ≤ fuel →
      ∃ k : ℕ, m = p ^ k * stripGo p fuel m ∧ ¬ p ∣ stripGo p fuel m := by
  intro fuel
  induction fuel with
  | zero => intro m hm hle; omega
  | succ f ih =>
    intro m hm hle
    by_cases hd : m % p = 0
    · have hdvd : p ∣ m := Nat.dvd_iff_mod_eq_zero.mpr hd
      have hppos : 0 < p := by omega
      have hq : 0 < m / p := Nat.div_pos (Nat.le_of_dvd hm hdvd) hppos
      have hlt : m / p < m := Nat.div_lt_self hm (by omega)
      obtain ⟨k, hk1, hk2⟩ := ih (m / p) hq (by omega)
      refine ⟨k + 1, ?_, ?_⟩
      · rw [stripGo, if_pos hd]
        calc m = p * (m / p) := (Nat.mul_div_cancel' hdvd).symm
        _ = p * (p ^ k * stripGo p f (m / p)) := by rw [← hk1]
        _ = p ^ (k + 1) * stripGo p f (m / p) := by ring
      · rw [stripGo, if_pos hd]
        exact hk2
    · refine ⟨0, ?_, ?_⟩
      · rw [stripGo, if_neg hd]
        ring
      · rw [stripGo, if_neg hd]
        intro hcon
        exact hd (Nat.dvd_iff_mod_eq_zero.mp hcon)

/-- After the trial division loop of `euler_phi` exits with working copy `m`
whose prime factors all exceed the square root bound, the final adjustment
turns a running result of the form `c * m` into `c * totient m`: the
remaining `m` is 1 or a single prime. -/
theorem phiExit (m c i : ℕ) (hm : 0 < m)
    (hfac : ∀ p : ℕ, p.Prime → p ∣ m → i ≤ p) (hgt : m < i * i) :
    (if 1 < m then c * m - c * m / m else c * m) = c * Nat.totient m := by
  by_cases h1 : 1 < m
  · rw [if_pos h1]
    have hprime : m.Prime := by
      by_contra hnp
      have h2 := Nat.minFac_sq_le_self (by omega) hnp
      have h3 := hfac m.minFac (Nat.minFac_prime (by omega)) (Nat.minFac_dvd m)
      have h4 : i * i ≤ m.minFac * m.minFac := Nat.mul_le_mul h3 h3
      rw [Nat.pow_two] at h2
      omega
    have hdiv : c * m / m = c := Nat.mul_div_cancel c hm
    rw [hdiv, Nat.totient_prime hprime]
    rw [Nat.mul_sub, Nat.mul_one]
  · rw [if_neg h1]
    have hm1 : m = 1 := by omega
    subst hm1
    simp [Nat.totient_one]

/-- Invariant of the odd trial division loop of `euler_phi`: starting from
an odd candidate `i >= 3` bounding every prime factor of `m` from below,
with running result `c * m` and enough fuel to pass the square root of `m`,
the loop followed by the final adjustment produces `c * totient m`. -/
theorem phiLoopGo_totient :
    ∀ (fuel i m c : ℕ), 0 < m → 3 ≤ i → i % 2 = 1 →
      (∀ p : ℕ, p.Prime → p ∣ m → i ≤ p) →
      Nat.sqrt m < i + 2 * fuel →
      (if 1 < (phiLoopGo fuel i m (c * m)).1
       then (phiLoopGo fuel i m (c * m)).2
         - (phiLoopGo fuel i m (c * m)).2 / (phiLoopGo fuel i m (c * m)).1
       else (phiLoopGo fuel i m (c * m)).2) = c * Nat.totient m := by
  intro fuel
  induction fuel with
  | zero =>
    intro i m c hm hi hodd hfac hsq
    have hgt : m < i * i := Nat.sqrt_lt.mp (by omega)
    exact phiExit m c i hm hfac hgt
  | succ f ih =>
    intro i m c hm hi hodd hfac hsq
    by_cases hcond : i * i ≤ m
    · by_cases hd : m % i = 0
      · have hdvd : i ∣ m := Nat.dvd_iff_mod_eq_zero.mpr hd
        have hiprime : i.Prime := by
          have hne1 : i ≠ 1 := by omega
          have hq := Nat.minFac_prime hne1
          have h1 : i.minFac ∣ m := (Nat.minFac_dvd i).trans hdvd
          have h2 := hfac i.minFac hq h1
          have h3 := Nat.minFac_le (show 0 < i by omega)
          have h4 : i.minFac = i := by omega
          rw [← h4]
          exact hq
        obtain ⟨k, hk1, hk2⟩ := stripGo_spec i (by omega) m m hm (le_refl m)
        obtain ⟨r, hrdef⟩ : ∃ r, stripGo i m m = r := ⟨_, rfl⟩
        rw [hrdef] at hk1 hk2
        have hkpos : 1 ≤ k := by
          by_contra hcon
          push_neg at hcon
          have hk0 : k = 0 := by omega
          rw [hk0, pow_zero, one_mul] at hk1
          exact hk2 (hk1 ▸ hdvd)
        have hrpos : 0 < r := by
          rcases Nat.eq_zero_or_pos r with h0 | h0
          · rw [h0, Nat.mul_zero] at hk1
            omega
          · exact h0
        have hip : 0 < i := by omega
        have hik : i ^ k = i * i ^ (k - 1) := by
          conv_lhs => rw [show k = 1 + (k - 1) by omega]
          rw [pow_add, pow_one]
        have hdiv_exact : c * m / i = c * i ^ (k - 1) * r := by
          rw [hk1, hik]
          rw [show c * (i * i ^ (k - 1) * r) = i * (c * i ^ (k - 1) * r) by ring]
          rw [Nat.mul_div_cancel_left _ hip]
        have hres : c * m - c * m / i = (c * (i ^ (k - 1) * (i - 1))) * r := by
          rw [hdiv_exact]
          conv_lhs => rw [hk1, hik]
          rw [show c * (i * i ^ (k - 1) * r) = (c * i ^ (k - 1) * r) * i by ring]
          have hms := Nat.mul_sub (c * i ^ (k - 1) * r) i 1
          rw [Nat.mul_one] at hms
          rw [← hms]
          ring
        have hrdvd : r ∣ m := ⟨i ^ k, by rw [hk1]; ring⟩
        have hstep : phiLoopGo (f + 1) i m (c * m)
            = phiLoopGo f (i + 2) r (c * m - c * m / i) := by
          rw [phiLoopGo, if_pos hcond, if_pos hd, hrdef]
        have hfac2 : ∀ p : ℕ, p.Prime → p ∣ r → i + 2 ≤ p := by
          intro p pp pdvd
          have hge := hfac p pp (pdvd.trans hrdvd)
          have hne_i : p ≠ i := fun h => hk2 (h ▸ pdvd)
          have hne_succ : p ≠ i + 1 := by
            intro h
            have h2p : 2 ∣ p := by omega
            have := ((Nat.Prime.eq_one_or_self_of_dvd pp 2 h2p).resolve_left
              (by norm_num)).symm
            omega
          omega
        have hsq2 : Nat.sqrt r < (i + 2) + 2 * f := by
          have h5 : r ≤ m := Nat.le_of_dvd hm hrdvd
          have := Nat.sqrt_le_sqrt h5
          omega
        rw [hstep, hres]
        have hihres := ih (i + 2) r (c * (i ^ (k - 1) * (i - 1)))
          hrpos (by omega) (by omega) hfac2 hsq2
        rw [hihres]
        have hcop : Nat.Coprime (i ^ k) r :=
          Nat.Coprime.pow_left k ((Nat.Prime.coprime_iff_not_dvd hiprime).mpr hk2)
        rw [show c * (i ^ (k - 1) * (i - 1)) = c * Nat.totient (i ^ k) by
          rw [Nat.totient_prime_pow hiprime (by omega)]]
        rw [Nat.mul_assoc, ← Nat.totient_mul hcop, ← hk1]
      · have hstep : phiLoopGo (f + 1) i m (c * m)
            = phiLoopGo f (i + 2) m (c * m) := by
          rw [phiLoopGo, if_pos hcond, if_neg hd]
        rw [hstep]
        apply ih (i + 2) m c hm (by omega) (by omega) ?_ (by omega)
        intro p pp pdvd
        have hge := hfac p pp pdvd
        have hne_i : p ≠ i := by
          intro h
          subst h
          exact hd (Nat.dvd_iff_mod_eq_zero.mp pdvd)
        have hne_succ : p ≠ i + 1 := by
          intro h
          have h2p : 2 ∣ p := by omega
          have := ((Nat.Prime.eq_one_or_self_of_dvd pp 2 h2p).resolve_left
            (by norm_num)).symm
          omega
        omega
    · have hstep : phiLoopGo (f + 1) i m (c * m) = (m, c * m) := by
        rw [phiLoopGo, if_neg hcond]
      rw [hstep]
      exact phiExit m c i hm hfac (by omega)

/-- The full totient computation of `euler_phi` agrees with the Mathlib
totient for every positive input. -/
theorem phiCore_totient (n : ℕ) (hn : 0 < n) : phiCore n = Nat.totient n := by
  unfold phiCore
  dsimp only
  by_cases h2 : n % 2 = 0
  · rw [if_pos h2, if_pos h2]
    have hdvd2 : 2 ∣ n := Nat.dvd_iff_mod_eq_zero.mpr h2
    obtain ⟨k, hk1, hk2⟩ := stripGo_spec 2 (le_refl 2) n n hn (le_refl n)
    obtain ⟨m, hmdef⟩ : ∃ m, stripGo 2 n n = m := ⟨_, rfl⟩
    rw [hmdef] at hk1 hk2
    rw [hmdef]
    have hkpos : 1 ≤ k := by
      by_contra hcon
      push_neg at hcon
      have hk0 : k = 0 := by omega
      rw [hk0, pow_zero, one_mul] at hk1
      exact hk2 (hk1 ▸ hdvd2)
    have hmpos : 0 < m := by
      rcases Nat.eq_zero_or_pos m with h0 | h0
      · rw [h0, Nat.mul_zero] at hk1
        omega
      · exact h0
    have hik : 2 ^ k = 2 * 2 ^ (k - 1) := by
      conv_lhs => rw [show k = 1 + (k - 1) by omega]
      rw [pow_add, pow_one]
    have hdiv : n / 2 = 2 ^ (k - 1) * m := by
      rw [hk1, hik, Nat.mul_assoc, Nat.mul_div_cancel_left _ (by norm_num : 0 < 2)]
    have hres1 : n - n / 2 = 2 ^ (k - 1) * m := by
      rw [hdiv]
      conv_lhs => rw [hk1, hik]
      have hx : 2 * 2 ^ (k - 1) * m = 2 ^ (k - 1) * m + 2 ^ (k - 1) * m := by ring
      omega
    rw [hres1]
    have hfac : ∀ p : ℕ, p.Prime → p ∣ m → 3 ≤ p := by
      intro p pp pdvd
      have hp2 : p ≠ 2 := by
        intro h
        subst h
        exact hk2 pdvd
      have := pp.two_le
      omega
    have happ := phiLoopGo_totient m 3 m (2 ^ (k - 1)) hmpos (le_refl 3) (by norm_num)
      hfac (by have := Nat.sqrt_le_self m; omega)
    rw [happ]
    have hcop : Nat.Coprime (2 ^ k) m :=
      Nat.Coprime.pow_left k ((Nat.Prime.coprime_iff_not_dvd Nat.prime_two).mpr hk2)
    rw [hk1, Nat.totient_mul hcop, Nat.totient_prime_pow Nat.prime_two (by omega)]
    norm_num
  · rw [if_neg h2, if_neg h2]
    have hfac : ∀ p : ℕ, p.Prime → p ∣ n → 3 ≤ p := by
      intro p pp pdvd
      have hp2 : p ≠ 2 := by
        intro h
        subst h
        exact h2 (Nat.dvd_iff_mod_eq_zero.mp pdvd)
      have := pp.two_le
      omega
    have happ := phiLoopGo_totient n 3 n 1 hn (le_refl 3) (by norm_num)
      hfac (by have := Nat.sqrt_le_self n; omega)
    simp only [Nat.one_mul] at happ
    exact happ

/-- The brute force coprime count from the claims agrees with the Mathlib
totient for every positive input. -/
theorem coprimeCount_eq_totient (n : ℕ) (hn : 0 < n) :
    coprimeCount n = Nat.totient n := by
  rcases Nat.lt_or_ge n 2 with h | h
  · have hn1 : n = 1 := by omega
    subst hn1
    decide
  · rw [Nat.totient_eq_card_coprime, coprimeCount]
    apply congrArg Finset.card
    ext d
    simp only [Finset.mem_filter, Finset.mem_Icc, Finset.mem_range]
    constructor
    · rintro ⟨⟨h1, h2⟩, h3⟩
      have hdn : d ≠ n := by
        intro hh
        subst hh
        rw [Nat.gcd_self] at h3
        omega
      refine ⟨by omega, ?_⟩
      rw [Nat.Coprime, Nat.gcd_comm]
      exact h3
    · rintro ⟨h1, h2⟩
      have hd0 : d ≠ 0 := by
        intro hh
        subst hh
        rw [Nat.coprime_zero_right] at h2
        omega
      refine ⟨⟨by omega, by omega⟩, ?_⟩
      rw [Nat.gcd_comm]
      exact h2

/-- For positive input, `euler_phi` passes validation and the isinstance
guard and returns the computed totient. -/
theorem euler_phi_pos_eq (n : ℤ) (hn : 0 < n) :
    euler_phi n = Except.ok (phiCore n.toNat : ℤ) := by
  rw [euler_phi, if_neg (by omega)]
  simp [isinstance_int]

/-! ### Claims C2, C6, C9 -/

/-- Claim C2: for every `n > 0`, `euler_phi(n)` returns the count of
integers `k` in `[1, n]` with `gcd(k, n) = 1`; in particular
`euler_phi(1) = 1`, `euler_phi(10) = 4`, `euler_phi(100) = 40`, and
`euler_phi(p) = p - 1` for every prime `p`. -/
theorem euler_phi_counts_coprime :
    (∀ n : ℤ, 0 < n → euler_phi n = Except.ok (coprimeCount n.toNat : ℤ)) ∧
    euler_phi 1 = Except.ok 1 ∧ euler_phi 10 = Except.ok 4 ∧
    euler_phi 100 = Except.ok 40 ∧
    (∀ p : ℕ, p.Prime → euler_phi (p : ℤ) = Except.ok ((p : ℤ) - 1)) := by
  have hgen : ∀ n : ℤ, 0 < n → euler_phi n = Except.ok (coprimeCount n.toNat : ℤ) := by
    intro n hn
    have h0 : 0 < n.toNat := by omega
    rw [euler_phi_pos_eq n hn, phiCore_totient n.toNat h0,
      coprimeCount_eq_totient n.toNat h0]
  refine ⟨hgen, by rfl, by rfl, by rfl, ?_⟩
  intro p pp
  have hp : (0 : ℤ) < (p : ℤ) := by exact_mod_cast pp.pos
  rw [hgen (p : ℤ) hp, Int.toNat_natCast, coprimeCount_eq_totient p pp.pos,
    Nat.totient_prime pp]
  congr 1
  rw [Nat.cast_sub pp.one_le]
  norm_num

/-- Claim C2, witness at the concrete prime `97`. -/
theorem euler_phi_counts_coprime_witness :
    Nat.Prime 97 ∧ euler_phi ((97 : ℕ) : ℤ) = Except.ok (((97 : ℕ) : ℤ) - 1) :=
  ⟨by norm_num, euler_phi_counts_coprime.2.2.2.2 97 (by norm_num)⟩

/-- Claim C6: for coprime positive integers `a` and `b`, the totient is
multiplicative: `euler_phi(a * b) = euler_phi(a) * euler_phi(b)`. -/
theorem euler_phi_multiplicative (a b : ℤ) (ha : 0 < a) (hb : 0 < b)
    (hcop : Int.gcd a b = 1) :
    ∃ x y : ℤ, euler_phi a = Except.ok x ∧ euler_phi b = Except.ok y ∧
      euler_phi (a * b) = Except.ok (x * y) := by
  obtain ⟨m, rfl⟩ : ∃ m : ℕ, a = (m : ℤ) :=
    ⟨a.toNat, (Int.toNat_of_nonneg (by omega)).symm⟩
  obtain ⟨k, rfl⟩ : ∃ k : ℕ, b = (k : ℤ) :=
    ⟨b.toNat, (Int.toNat_of_nonneg (by omega)).symm⟩
  have hm : 0 < m := by exact_mod_cast ha
  have hk : 0 < k := by exact_mod_cast hb
  have hmk : Nat.Coprime m k := by
    have := Int.gcd_natCast_natCast m k
    rw [Nat.Coprime]
    omega
  refine ⟨(phiCore m : ℤ), (phiCore k : ℤ), ?_, ?_, ?_⟩
  · rw [euler_phi_pos_eq _ ha, Int.toNat_natCast]
  · rw [euler_phi_pos_eq _ hb, Int.toNat_natCast]
  · have hab : (0 : ℤ) < (m : ℤ) * (k : ℤ) := mul_pos ha hb
    have htn : ((m : ℤ) * (k : ℤ)).toNat = m * k := by
      rw [← Nat.cast_mul, Int.toNat_natCast]
    rw [euler_phi_pos_eq _ hab, htn, phiCore_totient (m * k) (Nat.mul_pos hm hk),
      Nat.totient_mul hmk, phiCore_totient m hm, phiCore_totient k hk]
    push_cast
    ring_nf

/-- Claim C6, witness at the coprime pair `(4, 9)`. -/
theorem euler_phi_multiplicative_witness :
    (0 : ℤ) < 4 ∧ (0 : ℤ) < 9 ∧ Int.gcd 4 9 = 1 ∧
    (∃ x y : ℤ, euler_phi 4 = Except.ok x ∧ euler_phi 9 = Except.ok y ∧
      euler_phi (4 * 9) = Except.ok (x * y)) :=
  ⟨by decide, by decide, by decide,
    euler_phi_multiplicative 4 9 (by decide) (by decide) (by decide)⟩

/-- Claim C9: for every `n > 1` the value of `euler_phi` is at least 1 and
strictly below `n`, and for positive `n` the value equals `n` exactly when
`n = 1`. -/
theorem euler_phi_lt_self :
    (∀ n : ℤ, 1 < n → ∃ v : ℤ, euler_phi n = Except.ok v ∧ 1 ≤ v ∧ v < n) ∧
    (∀ n : ℤ, 0 < n → (euler_phi n = Except.ok n ↔ n = 1)) := by
  constructor
  · intro n hn
    obtain ⟨m, rfl⟩ : ∃ m : ℕ, n = (m : ℤ) :=
      ⟨n.toNat, (Int.toNat_of_nonneg (by omega)).symm⟩
    have hm : 1 < m := by exact_mod_cast hn
    refine ⟨(phiCore m : ℤ), ?_, ?_, ?_⟩
    · rw [euler_phi_pos_eq _ (by omega), Int.toNat_natCast]
    · rw [phiCore_totient m (by omega)]
      exact_mod_cast Nat.totient_pos.mpr (by omega)
    · rw [phiCore_totient m (by omega)]
      exact_mod_cast Nat.totient_lt m hm
  · intro n hn
    obtain ⟨m, rfl⟩ : ∃ m : ℕ, n = (m : ℤ) :=
      ⟨n.toNat, (Int.toNat_of_nonneg (by omega)).symm⟩
    have hm : 0 < m := by exact_mod_cast hn
    rw [euler_phi_pos_eq _ hn, Int.toNat_natCast]
    constructor
    · intro h
      injection h with h1
      have h2 : phiCore m = m := by exact_mod_cast h1
      rw [phiCore_totient m hm] at h2
      by_contra hcon
      have hm2 : 1 < m := by
        rcases Nat.lt_or_ge m 2 with hlt | hge
        · exfalso
          have hone : m = 1 := by omega
          subst hone
          exact hcon (by norm_num)
        · omega
      have := Nat.totient_lt m hm2
      omega
    · intro h
      have hm1 : m = 1 := by exact_mod_cast h
      subst hm1
      rfl

/-- Claim C9, witness at the concrete input `6`. -/
theorem euler_phi_lt_self_witness :
    ((1 : ℤ) < 6 ∧ ∃ v : ℤ, euler_phi 6 = Except.ok v ∧ 1 ≤ v ∧ v < 6) ∧
    ((0 : ℤ) < 3 ∧ (euler_phi 3 = Except.ok 3 ↔ (3 : ℤ) = 1)) :=
  ⟨⟨by decide, euler_phi_lt_self.1 6 (by decide)⟩,
   ⟨by decide, euler_phi_lt_self.2 3 (by decide)⟩⟩
